import Mathlib

/-!
Verification of the deduplicating string-counter hash table in `src/uniqstr.c`.

C strings are modelled as lists of byte values (`List Nat`, the bytes before
the terminating NUL); a `NULL` string pointer in a slot is `none`.  All machine
integers in the program hold small non-negative values (capacities reached by
doubling 11, counts bounded by the capacity, ASCII byte values), so they are
modelled as `Nat`; overflow never matters at these magnitudes.
-/

namespace UniqStr

/-- Byte contents of a C string. -/
abbrev Str := List Nat

/-- One slot of the dictionary (struct `Word`): `none` models a `NULL` `str`
pointer (an empty slot, as produced by `calloc`); `some (s, c)` an owned
string together with its count. -/
abbrev Word := Option (Str × Nat)

/-- The `HashTable` struct: backing store `dict`, capacity `size`, number of
occupied slots `count`. -/
structure HashTable where
  dict : List Word
  size : Nat
  count : Nat

def ASCII_SIZE : Nat := 128
def HASH_SIZE : Nat := 11
def HASH_MAGIC : Nat := 37
def HASH_GROWTH_FACTOR : Nat := 2
def MAX_STRING_SIZE : Nat := 64
def MIN_STRING_SIZE : Nat := 1

/-- Embedding of `hash` (uniqstr.c:84-90): polynomial rolling hash, one step
`hash = (hash * HASH_MAGIC + str[i]) % size` per character of the string. -/
def hash (str : Str) (size : Nat) : Nat :=
  str.foldl (fun h c => (h * HASH_MAGIC + c) % size) 0

/-- Embedding of `createHashTable` (uniqstr.c:98-112): all slots empty
(`calloc` zero-fills, so every `str` pointer is `NULL`), count 0, capacity as
given.  Allocation success is assumed; the allocation-failure path returns no
table at all and is not part of any reachable-table claim. -/
def createHashTable (size : Nat) : HashTable :=
  { dict := List.replicate size none, size := size, count := 0 }

/-- Embedding of `checkString` (uniqstr.c:169-175); `none` models a `NULL`
argument, and `strlen` of a modelled string is its length. -/
def checkString : Option Str → Int
  | none => -1
  | some s => if s.length < MIN_STRING_SIZE ∨ s.length > MAX_STRING_SIZE then -1 else 0

/-- Embedding of `checkSize` (uniqstr.c:183-186). -/
def checkSize (size : Int) : Int :=
  if size < 1 then -1 else size

/-- Embedding of `recalcLoadFactor` (uniqstr.c:194-200) for a non-null table:
the float `(float)(ht->count + 1) / ht->size`, read exactly as a rational. -/
def recalcLoadFactor (ht : HashTable) : ℚ :=
  (ht.count + 1 : ℚ) / (ht.size : ℚ)

/-- The growth test `recalcLoadFactor(ht) > HASH_LOAD_FACTOR` guarding
`growHashTable` in `addString` (uniqstr.c:237), as the exact integer
comparison `(count + 1) / size > 3 / 4 ↔ 4 * (count + 1) > 3 * size` (the
float division of the small program integers rounds by far too little to
cross the exactly representable threshold 0.75). -/
def loadFactorExceeded (ht : HashTable) : Bool :=
  decide (4 * (ht.count + 1) > 3 * ht.size)

/-- Embedding of the rehash placement loop of `growHashTable`
(uniqstr.c:213-218): linear-probe from `idx` until a slot with a `NULL`
string is found and move the entry there.  The C loop is unbounded; fuel
`size` covers every slot once, and the fuel-exhausted case (the C loop would
cycle forever, which the verified occupancy invariant rules out) returns the
store unchanged. -/
def placeLoop (d : List Word) (size : Nat) (s : Str) (c : Nat) : Nat → Nat → List Word
  | _, 0 => d
  | idx, fuel + 1 =>
    match d.getD idx none with
    | none => d.set idx (some (s, c))
    | some _ => placeLoop d size s c ((idx + 1) % size) fuel

/-- Body of the migration loop of `growHashTable` (uniqstr.c:211-220): skip
empty slots, re-place occupied ones by their hash against the new capacity. -/
def growStep (new_size : Nat) (nd : List Word) (w : Word) : List Word :=
  match w with
  | none => nd
  | some (s, c) => placeLoop nd new_size s c (hash s new_size) new_size

/-- Embedding of `growHashTable` (uniqstr.c:208-225): new store of twice the
capacity, every occupied old slot re-placed in slot order, count unchanged. -/
def growHashTable (ht : HashTable) : HashTable :=
  { dict := ht.dict.foldl (growStep (ht.size * HASH_GROWTH_FACTOR))
      (List.replicate (ht.size * HASH_GROWTH_FACTOR) none),
    size := ht.size * HASH_GROWTH_FACTOR,
    count := ht.count }

/-- Embedding of the do-while probe loop of `addString` (uniqstr.c:241-256):
at an empty slot store a fresh copy with count 1 (flag `true`: new entry); at
a slot holding an equal string increment its count (flag `false`); otherwise
step `+1 mod size`.  The C loop examines each slot at most once (it stops on
returning to the start index), which fuel `size` models exactly; `none` is
the exhausted TableFull outcome (uniqstr.c:258). -/
def addLoop (d : List Word) (size : Nat) (str : Str) : Nat → Nat → Option (List Word × Bool)
  | _, 0 => none
  | idx, fuel + 1 =>
    match d.getD idx none with
    | none => some (d.set idx (some (str, 1)), true)
    | some (s, c) =>
      if s = str then some (d.set idx (some (s, c + 1)), false)
      else addLoop d size str ((idx + 1) % size) fuel

/-- Outcome of the probe loop of `addString`: a new entry increments the
live count (uniqstr.c:246), an update leaves it unchanged (uniqstr.c:251),
and the TableFull outcome only reports an error, leaving the table as it
was after the optional growth (uniqstr.c:258). -/
def addStringPost (ht1 : HashTable) (r : Option (List Word × Bool)) : HashTable :=
  match r with
  | some (d, true) => { dict := d, size := ht1.size, count := ht1.count + 1 }
  | some (d, false) => { dict := d, size := ht1.size, count := ht1.count }
  | none => ht1

/-- Embedding of `addString` (uniqstr.c:235-259): grow first when the
prospective load factor exceeds the threshold, then hash against the current
capacity and run the probe loop; the insert path increments `count`, the
update path leaves it unchanged, and the TableFull path only reports an
error. -/
def addString (ht : HashTable) (str : Str) : HashTable :=
  let ht1 := if loadFactorExceeded ht then growHashTable ht else ht
  addStringPost ht1 (addLoop ht1.dict ht1.size str (hash str ht1.size) ht1.size)

/-- Modelled from the spec: the repository's source contains no
count-for-string query; section 4.4 of the spec requires one performing the
same probe sequence as insertion, stopping at an empty slot (miss) or at a
slot holding an equal string (hit with its count), without mutation. -/
def countLoop (d : List Word) (size : Nat) (str : Str) : Nat → Nat → Option Nat
  | _, 0 => none
  | idx, fuel + 1 =>
    match d.getD idx none with
    | none => none
    | some (s, c) =>
      if s = str then some c
      else countLoop d size str ((idx + 1) % size) fuel

/-- Modelled from the spec: the count-for-string query over a whole table,
probing from the string's hash exactly as `addString` does. -/
def countForString (ht : HashTable) (str : Str) : Option Nat :=
  countLoop ht.dict ht.size str (hash str ht.size) ht.size

/-- Embedding of `createLookupTable` (uniqstr.c:49-59).  The C loop bound is
`i <= sizeof(illegal)` where `illegal` has decayed to a pointer, so on an
LP64 platform the loop marks exactly the indices 0..8 of the argument,
whatever the length of the illegal-character set; for sets shorter than 9
the C code reads past the end of the array (undefined behavior), which the
model renders as a default byte 0. -/
def createLookupTable (illegal : List Nat) : List Nat :=
  (List.range 9).foldl (fun lookup i => lookup.set (illegal.getD i 0) 1)
    (List.replicate ASCII_SIZE 0)

/-- Worded from the spec (section 4.1), for comparison with the source's
`hash`: accumulator starts at 0 and each character sets
`accumulator = (accumulator * MAGIC_MULTIPLIER + character_code) mod capacity`
with MAGIC_MULTIPLIER 37. -/
def hashSpecAux (capacity : Nat) : Nat → Str → Nat
  | acc, [] => acc
  | acc, c :: cs => hashSpecAux capacity ((acc * 37 + c) % capacity) cs

/-- Worded from the spec (section 4.1): the full polynomial rolling hash. -/
def hashSpec (str : Str) (capacity : Nat) : Nat :=
  hashSpecAux capacity 0 str

/-- The (string, count) pairs of the occupied slots, in slot order. -/
def occEntries (d : List Word) : List (Str × Nat) :=
  d.filterMap id

/-- Number of occupied slots. -/
def numOccupied (d : List Word) : Nat :=
  (occEntries d).length

/-- Cyclic probe distance: number of `+1 mod n` steps leading from `i` to `j`. -/
def probeDist (i j n : Nat) : Nat :=
  (j + n - i) % n

/-- The table obtained by inserting the given strings, in order, into a
freshly created table: the reachable tables of the program. -/
def buildTable (sz : Nat) (strs : List Str) : HashTable :=
  List.foldl addString (createHashTable sz) strs

/-- Reference model: bump the count of string `s` in an association list. -/
def bump (m : List (Str × Nat)) (s : Str) : List (Str × Nat) :=
  m.map fun p => if p.1 = s then (p.1, p.2 + 1) else p

/-- Reference model of one insertion into an association list. -/
def modelAdd (m : List (Str × Nat)) (s : Str) : List (Str × Nat) :=
  if s ∈ m.map Prod.fst then bump m s else m ++ [(s, 1)]

/-- Reference model of a whole insertion sequence. -/
def modelList (strs : List Str) : List (Str × Nat) :=
  strs.foldl modelAdd []

/-! ### Proof infrastructure definitions -/

/-- Stopping condition of the `addString` / count-query probe: an empty slot
or a slot holding an equal string. -/
def stopAdd (str : Str) : Word → Bool
  | none => true
  | some p => p.1 == str

/-- Stopping condition of the growth re-placement probe: an empty slot. -/
def stopEmpty : Word → Bool
  | none => true
  | some _ => false

/-- The index where a probe with stopping condition `stop` halts. -/
def probeIdx (d : List Word) (n : Nat) (stop : Word → Bool) : Nat → Nat → Option Nat
  | _, 0 => none
  | idx, fuel + 1 =>
    if stop (d.getD idx none) then some idx
    else probeIdx d n stop ((idx + 1) % n) fuel

/-- Every occupied slot is reachable from its string's hash index through
occupied slots only: the classic linear-probing invariant, maintained
because insertion only ever fills the first empty slot on the path and no
slot is ever emptied. -/
def ProbeInv (d : List Word) (n : Nat) : Prop :=
  ∀ (j : Nat) (s : Str) (c : Nat), d.getD j none = some (s, c) →
    ∀ t, t < probeDist (hash s n) j n → d.getD ((hash s n + t) % n) none ≠ none

/-- Invariant tying the association-list model to the insertion sequence it
models. -/
structure ModelGood (m : List (Str × Nat)) (strs : List Str) : Prop where
  nodup : (m.map Prod.fst).Nodup
  mem : ∀ s, s ∈ m.map Prod.fst ↔ s ∈ strs
  cnt : ∀ p ∈ m, p.2 = strs.count p.1
  len : m.length = strs.toFinset.card

/-- Everything that holds of a table reached by creating it and performing a
sequence of insertions (modelled by `strs`). -/
structure Good (ht : HashTable) (strs : List Str) : Prop where
  hlen : ht.dict.length = ht.size
  hpos : 0 < ht.size
  hload : 4 * ht.count ≤ 3 * ht.size
  hcount : numOccupied ht.dict = ht.count
  hperm : List.Perm (occEntries ht.dict) (modelList strs)
  hprobe : ProbeInv ht.dict ht.size

/-- A small concrete table used to exercise the growth theorem. -/
def sampleTable : HashTable :=
  { dict := [some ([104], 2), none, some ([105], 1)], size := 3, count := 2 }

/-! ### Basic list lemmas -/

theorem getD_none_of_le : ∀ (d : List Word) (j : Nat), d.length ≤ j → d.getD j none = none
  | [], _, _ => rfl
  | _ :: d, j + 1, h => by
    rw [List.getD_cons_succ]
    exact getD_none_of_le d j (Nat.le_of_succ_le_succ h)

theorem getD_some_lt {d : List Word} {j : Nat} {p : Str × Nat}
    (h : d.getD j none = some p) : j < d.length := by
  by_contra hc
  rw [getD_none_of_le d j (Nat.le_of_not_lt hc)] at h
  exact Option.noConfusion h

theorem getD_set_self : ∀ (d : List Word) (j : Nat) (w : Word), j < d.length →
    (d.set j w).getD j none = w
  | _ :: _, 0, _, _ => rfl
  | a :: d, j + 1, w, h => by
    show (a :: d.set j w).getD (j + 1) none = w
    rw [List.getD_cons_succ]
    exact getD_set_self d j w (Nat.lt_of_succ_lt_succ h)

theorem getD_set_ne : ∀ (d : List Word) (j k : Nat) (w : Word), j ≠ k →
    (d.set j w).getD k none = d.getD k none
  | [], _, _, _, _ => rfl
  | _ :: _, 0, 0, _, h => absurd rfl h
  | a :: d, 0, k + 1, w, _ => rfl
  | a :: d, j + 1, 0, w, _ => rfl
  | a :: d, j + 1, k + 1, w, h => by
    show (a :: d.set j w).getD (k + 1) none = (a :: d).getD (k + 1) none
    rw [List.getD_cons_succ, List.getD_cons_succ]
    exact getD_set_ne d j k w (fun he => h (congrArg Nat.succ he))

theorem getD_replicate_none : ∀ (n j : Nat), (List.replicate n none : List Word).getD j none = none
  | 0, _ => rfl
  | n + 1, 0 => rfl
  | n + 1, j + 1 => by
    rw [List.replicate_succ, List.getD_cons_succ]
    exact getD_replicate_none n j

theorem occEntries_nil : occEntries [] = [] := rfl

theorem occEntries_cons_none (d : List Word) : occEntries (none :: d) = occEntries d := rfl

theorem occEntries_cons_some (p : Str × Nat) (d : List Word) :
    occEntries (some p :: d) = p :: occEntries d := rfl

theorem occEntries_replicate : ∀ n : Nat, occEntries (List.replicate n none) = []
  | 0 => rfl
  | n + 1 => by rw [List.replicate_succ, occEntries_cons_none, occEntries_replicate n]

theorem numOccupied_le_length (d : List Word) : numOccupied d ≤ d.length :=
  List.length_filterMap_le id d

/-- Every value read from a slot is an entry of the store. -/
theorem mem_occ_of_getD : ∀ (d : List Word) (j : Nat) (p : Str × Nat),
    d.getD j none = some p → p ∈ occEntries d
  | [], j, p, h => by rw [getD_none_of_le [] j (Nat.zero_le j)] at h; exact Option.noConfusion h
  | a :: d, 0, p, h => by
    rw [List.getD_cons_zero] at h
    subst h
    exact List.mem_cons_self p (occEntries d)
  | a :: d, j + 1, p, h => by
    rw [List.getD_cons_succ] at h
    have hm := mem_occ_of_getD d j p h
    match a with
    | none => exact hm
    | some q => exact List.mem_cons_of_mem q hm

/-- Every entry of the store is read from some slot. -/
theorem getD_of_mem_occ : ∀ (d : List Word) (p : Str × Nat), p ∈ occEntries d →
    ∃ j, j < d.length ∧ d.getD j none = some p
  | [], p, h => absurd h (List.not_mem_nil p)
  | none :: d, p, h => by
    rw [occEntries_cons_none] at h
    obtain ⟨j, hj, hg⟩ := getD_of_mem_occ d p h
    exact ⟨j + 1, Nat.succ_lt_succ hj, by rw [List.getD_cons_succ]; exact hg⟩
  | some q :: d, p, h => by
    rw [occEntries_cons_some] at h
    rcases List.mem_cons.1 h with he | hm
    · exact ⟨0, Nat.succ_pos _, by rw [List.getD_cons_zero, he]⟩
    · obtain ⟨j, hj, hg⟩ := getD_of_mem_occ d p hm
      exact ⟨j + 1, Nat.succ_lt_succ hj, by rw [List.getD_cons_succ]; exact hg⟩

/-- If the keys of the occupied entries are pairwise distinct, a string sits
in at most one slot. -/
theorem uniq_of_nodup : ∀ (d : List Word),
    ((occEntries d).map Prod.fst).Nodup →
    ∀ (j k : Nat) (s : Str) (c c' : Nat),
      d.getD j none = some (s, c) → d.getD k none = some (s, c') → j = k
  | [], _, j, k, s, c, c', hj, _ => by
    rw [getD_none_of_le [] j (Nat.zero_le j)] at hj; exact Option.noConfusion hj
  | none :: d, hnd, j, k, s, c, c', hj, hk => by
    match j, k with
    | 0, _ => rw [List.getD_cons_zero] at hj; exact Option.noConfusion hj
    | _ + 1, 0 => rw [List.getD_cons_zero] at hk; exact Option.noConfusion hk
    | j + 1, k + 1 =>
      rw [List.getD_cons_succ] at hj hk
      rw [occEntries_cons_none] at hnd
      exact congrArg Nat.succ (uniq_of_nodup d hnd j k s c c' hj hk)
  | some q :: d, hnd, j, k, s, c, c', hj, hk => by
    rw [occEntries_cons_some, List.map_cons, List.nodup_cons] at hnd
    match j, k with
    | 0, 0 => rfl
    | 0, k + 1 =>
      rw [List.getD_cons_zero] at hj
      rw [List.getD_cons_succ] at hk
      have hq : q = (s, c) := Option.some.inj hj
      subst hq
      exact absurd (List.mem_map_of_mem Prod.fst (mem_occ_of_getD d k (s, c') hk)) hnd.1
    | j + 1, 0 =>
      rw [List.getD_cons_zero] at hk
      rw [List.getD_cons_succ] at hj
      have hq : q = (s, c') := Option.some.inj hk
      subst hq
      exact absurd (List.mem_map_of_mem Prod.fst (mem_occ_of_getD d j (s, c) hj)) hnd.1
    | j + 1, k + 1 =>
      rw [List.getD_cons_succ] at hj hk
      exact congrArg Nat.succ (uniq_of_nodup d hnd.2 j k s c c' hj hk)

/-- Setting an empty slot adds exactly that entry to the store's contents. -/
theorem occ_set_empty : ∀ (d : List Word) (j : Nat) (p : Str × Nat), j < d.length →
    d.getD j none = none →
    List.Perm (occEntries (d.set j (some p))) (p :: occEntries d)
  | [], j, _, hj, _ => absurd hj (Nat.not_lt_zero j)
  | a :: d, 0, p, _, hg => by
    rw [List.getD_cons_zero] at hg
    subst hg
    exact List.Perm.refl _
  | a :: d, j + 1, p, hj, hg => by
    rw [List.getD_cons_succ] at hg
    have ih := occ_set_empty d j p (Nat.lt_of_succ_lt_succ hj) hg
    show List.Perm (occEntries (a :: d.set j (some p))) (p :: occEntries (a :: d))
    match a with
    | none => exact ih
    | some q =>
      rw [occEntries_cons_some, occEntries_cons_some]
      exact ((ih.cons q).trans (List.Perm.swap p q _))

/-- An unoccupied table position stays within bounds of `occEntries` length. -/
theorem numOccupied_set_empty (d : List Word) (j : Nat) (p : Str × Nat)
    (hj : j < d.length) (hg : d.getD j none = none) :
    numOccupied (d.set j (some p)) = numOccupied d + 1 := by
  have := (occ_set_empty d j p hj hg).length_eq
  simpa [numOccupied] using this

/-- If fewer slots are occupied than exist, some slot is empty. -/
theorem exists_empty : ∀ d : List Word, numOccupied d < d.length →
    ∃ j, j < d.length ∧ d.getD j none = none
  | [], h => absurd h (Nat.lt_irrefl 0)
  | none :: d, _ => ⟨0, Nat.succ_pos _, rfl⟩
  | some q :: d, h => by
    have heq : numOccupied (some q :: d) = numOccupied d + 1 := by
      simp [numOccupied, occEntries]
    rw [heq, List.length_cons] at h
    obtain ⟨j, hj, hg⟩ := exists_empty d (Nat.lt_of_succ_lt_succ h)
    exact ⟨j + 1, Nat.succ_lt_succ hj, by rw [List.getD_cons_succ]; exact hg⟩

/-! ### Modular arithmetic for linear probing -/

theorem probeDist_lt {n : Nat} (i j : Nat) (hn : 0 < n) : probeDist i j n < n :=
  Nat.mod_lt _ hn

theorem add_probeDist {i j n : Nat} (hi : i < n) (hj : j < n) :
    (i + probeDist i j n) % n = j := by
  unfold probeDist
  rw [Nat.add_mod_mod]
  have he : i + (j + n - i) = j + n := by omega
  rw [he, Nat.add_mod_right, Nat.mod_eq_of_lt hj]

theorem probeDist_add {i t n : Nat} (hi : i < n) (ht : t < n) :
    probeDist i ((i + t) % n) n = t := by
  unfold probeDist
  have he : (i + t) % n + n - i = (i + t) % n + (n - i) := by omega
  rw [he, Nat.mod_add_mod]
  have he2 : i + t + (n - i) = t + n := by omega
  rw [he2, Nat.add_mod_right, Nat.mod_eq_of_lt ht]

theorem probe_pos_inj {i t t' n : Nat} (hi : i < n) (ht : t < n) (ht' : t' < n)
    (he : (i + t) % n = (i + t') % n) : t = t' := by
  rw [← probeDist_add hi ht, he, probeDist_add hi ht']

theorem probe_step_mod {idx t n : Nat} : ((idx + 1) % n + t) % n = (idx + (t + 1)) % n := by
  rw [Nat.mod_add_mod]
  have : idx + 1 + t = idx + (t + 1) := by omega
  rw [this]

/-- The hash of any string against a positive capacity is in range. -/
theorem hash_lt (str : Str) {n : Nat} (hn : 0 < n) : hash str n < n := by
  have haux : ∀ (l : Str) (acc : Nat), acc < n →
      l.foldl (fun h c => (h * HASH_MAGIC + c) % n) acc < n := by
    intro l
    induction l with
    | nil => intro acc hacc; exact hacc
    | cons c cs ih =>
      intro acc _
      exact ih _ (Nat.mod_lt _ hn)
  exact haux str 0 hn

/-! ### The generic probe: all three loops of the program share it -/

theorem addLoop_eq_probeIdx (d : List Word) (n : Nat) (str : Str) :
    ∀ (fuel idx : Nat),
      addLoop d n str idx fuel = (probeIdx d n (stopAdd str) idx fuel).map (fun j =>
        match d.getD j none with
        | none => (d.set j (some (str, 1)), true)
        | some p => (d.set j (some (p.1, p.2 + 1)), false)) := by
  intro fuel
  induction fuel with
  | zero => intro idx; rfl
  | succ fuel ih =>
    intro idx
    rcases hg : d.getD idx none with _ | ⟨s, c⟩
    all_goals rw [List.getD_eq_getElem?_getD] at hg
    · simp [addLoop, probeIdx, stopAdd, hg]
    · by_cases he : s = str
      · subst he
        simp [addLoop, probeIdx, stopAdd, hg]
      · have hb : (s == str) = false := beq_false_of_ne he
        simp [addLoop, probeIdx, stopAdd, hg, he, hb, ih]

theorem countLoop_eq_probeIdx (d : List Word) (n : Nat) (str : Str) :
    ∀ (fuel idx : Nat),
      countLoop d n str idx fuel = (probeIdx d n (stopAdd str) idx fuel).bind (fun j =>
        match d.getD j none with
        | none => none
        | some p => if p.1 = str then some p.2 else none) := by
  intro fuel
  induction fuel with
  | zero => intro idx; rfl
  | succ fuel ih =>
    intro idx
    rcases hg : d.getD idx none with _ | ⟨s, c⟩
    all_goals rw [List.getD_eq_getElem?_getD] at hg
    · simp [countLoop, probeIdx, stopAdd, hg]
    · by_cases he : s = str
      · subst he
        simp [countLoop, probeIdx, stopAdd, hg]
      · have hb : (s == str) = false := beq_false_of_ne he
        simp [countLoop, probeIdx, stopAdd, hg, he, hb, ih]

theorem placeLoop_eq_probeIdx (d : List Word) (n : Nat) (s : Str) (c : Nat) :
    ∀ (fuel idx : Nat),
      placeLoop d n s c idx fuel = (match probeIdx d n stopEmpty idx fuel with
        | none => d
        | some j => d.set j (some (s, c))) := by
  intro fuel
  induction fuel with
  | zero => intro idx; rfl
  | succ fuel ih =>
    intro idx
    rcases hg : d.getD idx none with _ | p
    all_goals rw [List.getD_eq_getElem?_getD] at hg
    · simp [placeLoop, probeIdx, stopEmpty, hg]
    · simp [placeLoop, probeIdx, stopEmpty, hg, ih]

/-- Characterization of a successful probe: it halts at the first offset on
the cyclic path from `idx` whose slot satisfies the stopping condition. -/
theorem probeIdx_eq_some (d : List Word) (n : Nat) (stop : Word → Bool) (hn : 0 < n) :
    ∀ (fuel idx j : Nat), idx < n → probeIdx d n stop idx fuel = some j →
      ∃ t, t < fuel ∧ j = (idx + t) % n ∧ stop (d.getD j none) = true ∧
        ∀ t', t' < t → stop (d.getD ((idx + t') % n) none) = false := by
  intro fuel
  induction fuel with
  | zero => intro idx j _ h; exact Option.noConfusion h
  | succ fuel ih =>
    intro idx j hidx h
    by_cases hstop : stop (d.getD idx none) = true
    · rw [probeIdx, if_pos hstop] at h
      have hj : j = idx := (Option.some.inj h).symm
      subst hj
      refine ⟨0, Nat.succ_pos _, ?_, hstop, fun t' ht' => absurd ht' (Nat.not_lt_zero t')⟩
      rw [Nat.add_zero, Nat.mod_eq_of_lt hidx]
    · rw [probeIdx, if_neg hstop] at h
      obtain ⟨t, htf, hje, hjs, hmin⟩ := ih ((idx + 1) % n) j (Nat.mod_lt _ hn) h
      refine ⟨t + 1, Nat.succ_lt_succ htf, ?_, hjs, ?_⟩
      · rw [hje, probe_step_mod]
      · intro t' ht'
        match t' with
        | 0 =>
          rw [Nat.add_zero, Nat.mod_eq_of_lt hidx]
          exact Bool.not_eq_true _ ▸ eq_false_of_ne_true hstop
        | t' + 1 =>
          have := hmin t' (Nat.lt_of_succ_lt_succ ht')
          rw [probe_step_mod] at this
          exact this

/-- A probe with enough fuel to reach a stopping slot halts. -/
theorem probeIdx_isSome (d : List Word) (n : Nat) (stop : Word → Bool) (hn : 0 < n) :
    ∀ (fuel idx : Nat), idx < n →
      (∃ t, t < fuel ∧ stop (d.getD ((idx + t) % n) none) = true) →
      ∃ j, probeIdx d n stop idx fuel = some j := by
  intro fuel
  induction fuel with
  | zero =>
    intro idx _ h
    obtain ⟨t, ht, _⟩ := h
    exact absurd ht (Nat.not_lt_zero t)
  | succ fuel ih =>
    intro idx hidx h
    by_cases hstop : stop (d.getD idx none) = true
    · exact ⟨idx, by rw [probeIdx, if_pos hstop]⟩
    · obtain ⟨t, htf, hts⟩ := h
      match t with
      | 0 =>
        rw [Nat.add_zero, Nat.mod_eq_of_lt hidx] at hts
        exact absurd hts hstop
      | t + 1 =>
        have hts' : stop (d.getD (((idx + 1) % n + t) % n) none) = true := by
          rw [probe_step_mod]; exact hts
        obtain ⟨j, hj⟩ := ih ((idx + 1) % n) (Nat.mod_lt _ hn)
          ⟨t, Nat.lt_of_succ_lt_succ htf, hts'⟩
        exact ⟨j, by rw [probeIdx, if_neg hstop]; exact hj⟩

/-! ### The probe-path invariant of linear probing without deletions -/

/-- A probe for a string that occupies slot `j` halts exactly at `j`. -/
theorem probe_present {d : List Word} {n : Nat} {str : Str} {j c : Nat}
    (hl : d.length = n) (hn : 0 < n)
    (huniq : ∀ (j' k : Nat) (s : Str) (c₁ c₂ : Nat),
      d.getD j' none = some (s, c₁) → d.getD k none = some (s, c₂) → j' = k)
    (hinv : ProbeInv d n)
    (hj : d.getD j none = some (str, c)) :
    probeIdx d n (stopAdd str) (hash str n) n = some j := by
  have hh : hash str n < n := hash_lt str hn
  have hjn : j < n := hl ▸ getD_some_lt hj
  have htj : probeDist (hash str n) j n < n := probeDist_lt _ _ hn
  have hpos : (hash str n + probeDist (hash str n) j n) % n = j := add_probeDist hh hjn
  have hstopj : stopAdd str (d.getD ((hash str n + probeDist (hash str n) j n) % n) none) = true := by
    rw [hpos, hj]
    show (str == str) = true
    exact beq_self_eq_true str
  obtain ⟨j₀, hj₀⟩ := probeIdx_isSome d n (stopAdd str) hn n (hash str n) hh
    ⟨probeDist (hash str n) j n, htj, hstopj⟩
  obtain ⟨t₀, ht₀n, hj₀eq, hstop₀, hmin⟩ := probeIdx_eq_some d n (stopAdd str) hn n (hash str n) j₀ hh hj₀
  rcases hg₀ : d.getD j₀ none with _ | p
  · -- the probe halted on an empty slot: impossible, slot j comes no later
    exfalso
    rcases Nat.lt_trichotomy t₀ (probeDist (hash str n) j n) with hlt | heq | hgt
    · exact hinv j str c hj t₀ hlt (hj₀eq ▸ hg₀)
    · rw [heq] at hj₀eq
      rw [hj₀eq, hpos, hj] at hg₀
      exact Option.noConfusion hg₀
    · have := hmin _ hgt
      rw [hstopj] at this
      exact Bool.noConfusion this
  · -- the probe halted on an equal string: uniqueness pins the slot to j
    rw [hg₀] at hstop₀
    have hps : p.1 = str := by
      have : (p.1 == str) = true := hstop₀
      exact eq_of_beq this
    have hj₀j : j₀ = j := by
      have hgp : d.getD j₀ none = some (str, p.2) := by
        rw [hg₀]
        cases p
        simp_all
      exact huniq j₀ j str p.2 c hgp hj
    rw [hj₀j] at hj₀
    exact hj₀

/-- A probe for a string occupying no slot halts at the first empty slot on
its path, and exists as soon as the table has an empty slot. -/
theorem probe_absent {d : List Word} {n : Nat} {str : Str}
    (hl : d.length = n) (hn : 0 < n)
    (habs : ∀ (j c : Nat), d.getD j none ≠ some (str, c))
    (hocc : numOccupied d < n) :
    ∃ j, j < n ∧ d.getD j none = none ∧
      probeIdx d n (stopAdd str) (hash str n) n = some j ∧
      ∀ t, t < probeDist (hash str n) j n → d.getD ((hash str n + t) % n) none ≠ none := by
  have hh : hash str n < n := hash_lt str hn
  obtain ⟨je, hje, hge⟩ := exists_empty d (by rw [hl]; exact hocc)
  have hjen : je < n := hl ▸ hje
  have hstope : stopAdd str (d.getD ((hash str n + probeDist (hash str n) je n) % n) none) = true := by
    rw [add_probeDist hh hjen, hge]
    rfl
  obtain ⟨j₀, hj₀⟩ := probeIdx_isSome d n (stopAdd str) hn n (hash str n) hh
    ⟨probeDist (hash str n) je n, probeDist_lt _ _ hn, hstope⟩
  obtain ⟨t₀, ht₀n, hj₀eq, hstop₀, hmin⟩ := probeIdx_eq_some d n (stopAdd str) hn n (hash str n) j₀ hh hj₀
  have hj₀n : j₀ < n := by rw [hj₀eq]; exact Nat.mod_lt _ hn
  have hg₀ : d.getD j₀ none = none := by
    rcases hg : d.getD j₀ none with _ | p
    · rfl
    · exfalso
      rw [hg] at hstop₀
      have hps : p.1 = str := eq_of_beq hstop₀
      have : d.getD j₀ none = some (str, p.2) := by
        rw [hg]
        cases p
        simp_all
      exact habs j₀ p.2 this
  have hdist : probeDist (hash str n) j₀ n = t₀ := by
    rw [hj₀eq]
    exact probeDist_add hh ht₀n
  refine ⟨j₀, hj₀n, hg₀, hj₀, ?_⟩
  intro t ht
  rw [hdist] at ht
  have := hmin t ht
  rcases hg : d.getD ((hash str n + t) % n) none with _ | p
  · rw [hg] at this
    exact Bool.noConfusion this
  · exact fun h => Option.noConfusion h

/-- Sufficient condition for the probe invariant of a modified store: every
position occupied before stays occupied, and every entry of the new store
either already sat in its slot (with any count) or has its whole probe path
occupied in the old store. -/
theorem probeInv_of {d d' : List Word} {n : Nat}
    (hmono : ∀ pos : Nat, d.getD pos none ≠ none → d'.getD pos none ≠ none)
    (hcases : ∀ (k : Nat) (s : Str) (c : Nat), d'.getD k none = some (s, c) →
      (∃ c₀, d.getD k none = some (s, c₀)) ∨
      (∀ t, t < probeDist (hash s n) k n → d.getD ((hash s n + t) % n) none ≠ none))
    (hd : ProbeInv d n) : ProbeInv d' n := by
  intro k s c hk t ht
  rcases hcases k s c hk with ⟨c₀, hk₀⟩ | hpath
  · exact hmono _ (hd k s c₀ hk₀ t ht)
  · exact hmono _ (hpath t ht)

/-- Occupancy is monotone under writing an entry into a slot. -/
theorem occupied_mono_set {d : List Word} {j : Nat} {p : Str × Nat} :
    ∀ pos : Nat, d.getD pos none ≠ none → (d.set j (some p)).getD pos none ≠ none := by
  intro pos hpos
  by_cases he : j = pos
  · subst he
    by_cases hj : j < d.length
    · rw [getD_set_self d j (some p) hj]
      exact fun h => Option.noConfusion h
    · rw [List.set_eq_of_length_le (Nat.le_of_not_lt hj)]
      exact hpos
  · rw [getD_set_ne d j pos (some p) he]
    exact hpos

/-! ### The association-list reference model -/

theorem bump_fst (m : List (Str × Nat)) (s : Str) :
    (bump m s).map Prod.fst = m.map Prod.fst := by
  induction m with
  | nil => rfl
  | cons p m ih =>
    have hhead : ((if p.1 = s then (p.1, p.2 + 1) else p) : Str × Nat).1 = p.1 := by
      by_cases h : p.1 = s
      · rw [if_pos h]
      · rw [if_neg h]
    calc (bump (p :: m) s).map Prod.fst
        = (if p.1 = s then (p.1, p.2 + 1) else p).1 :: (bump m s).map Prod.fst := rfl
      _ = p.1 :: m.map Prod.fst := by rw [hhead, ih]

theorem bump_eq_self : ∀ (m : List (Str × Nat)) (s : Str), s ∉ m.map Prod.fst → bump m s = m
  | [], _, _ => rfl
  | p :: m, s, h => by
    have h1 : ¬ p.1 = s := by
      intro he
      exact h (by rw [List.map_cons, he]; exact List.mem_cons_self s _)
    have h2 : s ∉ m.map Prod.fst := by
      intro hm
      exact h (by rw [List.map_cons]; exact List.mem_cons_of_mem _ hm)
    show (if p.1 = s then (p.1, p.2 + 1) else p) :: bump m s = p :: m
    rw [if_neg h1, bump_eq_self m s h2]

/-- Incrementing the count stored in the (unique) slot holding `s` is exactly
a `bump` of the table's contents. -/
theorem occ_set_bump : ∀ (d : List Word) (j : Nat) (s : Str) (c : Nat), j < d.length →
    d.getD j none = some (s, c) → ((occEntries d).map Prod.fst).Nodup →
    occEntries (d.set j (some (s, c + 1))) = bump (occEntries d) s
  | [], j, _, _, hj, _, _ => absurd hj (Nat.not_lt_zero j)
  | a :: d, 0, s, c, _, hg, hnd => by
    rw [List.getD_cons_zero] at hg
    subst hg
    rw [occEntries_cons_some, List.map_cons, List.nodup_cons] at hnd
    show (s, c + 1) :: occEntries d
        = (if (s, c).1 = s then ((s, c).1, (s, c).2 + 1) else (s, c)) :: bump (occEntries d) s
    rw [if_pos rfl, bump_eq_self _ s hnd.1]
  | a :: d, j + 1, s, c, hj, hg, hnd => by
    rw [List.getD_cons_succ] at hg
    match a with
    | none =>
      show occEntries (none :: d.set j (some (s, c + 1))) = bump (occEntries (none :: d)) s
      rw [occEntries_cons_none, occEntries_cons_none] at *
      exact occ_set_bump d j s c (Nat.lt_of_succ_lt_succ hj) hg hnd
    | some q =>
      rw [occEntries_cons_some, List.map_cons, List.nodup_cons] at hnd
      have hmem : s ∈ (occEntries d).map Prod.fst :=
        List.mem_map_of_mem Prod.fst (mem_occ_of_getD d j (s, c) hg)
      have hqs : ¬ q.1 = s := fun he => hnd.1 (by rw [he]; exact hmem)
      show q :: occEntries (d.set j (some (s, c + 1)))
        = (if q.1 = s then (q.1, q.2 + 1) else q) :: bump (occEntries d) s
      rw [if_neg hqs, occ_set_bump d j s c (Nat.lt_of_succ_lt_succ hj) hg hnd.2]

theorem count_singleton_self (s : Str) : [s].count s = 1 := by simp

theorem count_singleton_ne {s t : Str} (h : ¬ t = s) : [s].count t = 0 := by
  rw [List.count_eq_zero]
  intro hm
  exact h (List.mem_singleton.1 hm)

theorem modelGood_add {m : List (Str × Nat)} {strs : List Str}
    (h : ModelGood m strs) (s : Str) : ModelGood (modelAdd m s) (strs ++ [s]) := by
  by_cases hs : s ∈ m.map Prod.fst
  · have hmem : s ∈ strs := (h.mem s).1 hs
    refine ⟨?_, ?_, ?_, ?_⟩
    · rw [modelAdd, if_pos hs, bump_fst]
      exact h.nodup
    · intro t
      rw [modelAdd, if_pos hs, bump_fst, List.mem_append]
      constructor
      · intro ht
        exact Or.inl ((h.mem t).1 ht)
      · intro ht
        rcases ht with ht | ht
        · exact (h.mem t).2 ht
        · rw [List.mem_singleton] at ht
          subst ht
          exact hs
    · intro p hp
      rw [modelAdd, if_pos hs, bump] at hp
      obtain ⟨q, hq, hpq⟩ := List.mem_map.1 hp
      by_cases hqs : q.1 = s
      · rw [if_pos hqs] at hpq
        subst hpq
        show q.2 + 1 = (strs ++ [s]).count q.1
        rw [List.count_append, hqs, count_singleton_self, ← hqs]
        have := h.cnt q hq
        omega
      · rw [if_neg hqs] at hpq
        subst hpq
        rw [List.count_append, count_singleton_ne hqs, Nat.add_zero]
        exact h.cnt q hq
    · rw [modelAdd, if_pos hs, bump, List.length_map, h.len, List.toFinset_append]
      have h1 : ([s] : List Str).toFinset = {s} := by simp
      have hsub : ({s} : Finset Str) ⊆ strs.toFinset := by
        intro x hx
        rw [Finset.mem_singleton] at hx
        subst hx
        exact List.mem_toFinset.2 hmem
      rw [h1, Finset.union_eq_left.2 hsub]
  · have hmem : s ∉ strs := fun hc => hs ((h.mem s).2 hc)
    refine ⟨?_, ?_, ?_, ?_⟩
    · rw [modelAdd, if_neg hs, List.map_append, List.nodup_append]
      refine ⟨h.nodup, List.nodup_singleton s, ?_⟩
      intro t htm hts
      have hts' : t = s := by simpa using hts
      subst hts'
      exact hs htm
    · intro t
      rw [modelAdd, if_neg hs, List.map_append, List.mem_append, List.mem_append]
      constructor
      · intro ht
        rcases ht with ht | ht
        · exact Or.inl ((h.mem t).1 ht)
        · exact Or.inr ht
      · intro ht
        rcases ht with ht | ht
        · exact Or.inl ((h.mem t).2 ht)
        · exact Or.inr ht
    · intro p hp
      rw [modelAdd, if_neg hs] at hp
      rcases List.mem_append.1 hp with hp | hp
      · have hp1 : p.1 ∈ m.map Prod.fst := List.mem_map_of_mem Prod.fst hp
        have hne : ¬ p.1 = s := fun he => hs (he ▸ hp1)
        rw [List.count_append, count_singleton_ne hne, Nat.add_zero]
        exact h.cnt p hp
      · rw [List.mem_singleton] at hp
        subst hp
        show (1 : Nat) = (strs ++ [s]).count s
        rw [List.count_append, List.count_eq_zero.2 hmem, count_singleton_self]
    · rw [modelAdd, if_neg hs, List.length_append, h.len, List.toFinset_append]
      have h1 : ([s] : List Str).toFinset = {s} := by simp
      rw [h1, Finset.union_comm, ← Finset.insert_eq,
        Finset.card_insert_of_not_mem (fun hc => hmem (List.mem_toFinset.1 hc))]
      rfl

theorem modelGood_nil : ModelGood [] [] :=
  ⟨List.nodup_nil, fun s => by simp, fun p hp => absurd hp (List.not_mem_nil p), by simp⟩

theorem modelGood_list : ∀ (strs acc : List Str) (m : List (Str × Nat)), ModelGood m acc →
    ModelGood (strs.foldl modelAdd m) (acc ++ strs)
  | [], acc, m, h => by rw [List.append_nil]; exact h
  | s :: strs, acc, m, h => by
    have h2 := modelGood_list strs (acc ++ [s]) (modelAdd m s) (modelGood_add h s)
    rw [List.append_assoc] at h2
    exact h2

theorem modelList_good (strs : List Str) : ModelGood (modelList strs) strs := by
  have h := modelGood_list strs [] [] modelGood_nil
  rw [List.nil_append] at h
  exact h

/-! ### The growth fold -/

/-- A probe for an empty slot halts at the first empty slot on its path, as
soon as the table has one. -/
theorem probe_empty {d : List Word} {n h0 : Nat}
    (hl : d.length = n) (hn : 0 < n) (hh : h0 < n) (hocc : numOccupied d < n) :
    ∃ j, j < n ∧ d.getD j none = none ∧
      probeIdx d n stopEmpty h0 n = some j ∧
      ∀ t, t < probeDist h0 j n → d.getD ((h0 + t) % n) none ≠ none := by
  obtain ⟨je, hje, hge⟩ := exists_empty d (by rw [hl]; exact hocc)
  have hjen : je < n := hl ▸ hje
  have hstope : stopEmpty (d.getD ((h0 + probeDist h0 je n) % n) none) = true := by
    rw [add_probeDist hh hjen, hge]
    rfl
  obtain ⟨j₀, hj₀⟩ := probeIdx_isSome d n stopEmpty hn n h0 hh
    ⟨probeDist h0 je n, probeDist_lt _ _ hn, hstope⟩
  obtain ⟨t₀, ht₀n, hj₀eq, hstop₀, hmin⟩ := probeIdx_eq_some d n stopEmpty hn n h0 j₀ hh hj₀
  have hj₀n : j₀ < n := by rw [hj₀eq]; exact Nat.mod_lt _ hn
  have hg₀ : d.getD j₀ none = none := by
    rcases hg : d.getD j₀ none with _ | p
    · rfl
    · rw [hg] at hstop₀
      exact Bool.noConfusion hstop₀
  have hdist : probeDist h0 j₀ n = t₀ := by
    rw [hj₀eq]
    exact probeDist_add hh ht₀n
  refine ⟨j₀, hj₀n, hg₀, hj₀, ?_⟩
  intro t ht
  rw [hdist] at ht
  have hf := hmin t ht
  rcases hg : d.getD ((h0 + t) % n) none with _ | p
  · rw [hg] at hf
    exact Bool.noConfusion hf
  · exact fun h => Option.noConfusion h

/-- What one re-placement during growth does: it writes the entry into the
first empty slot on the probe path from its hash. -/
theorem placeLoop_spec {d : List Word} {n : Nat} (s : Str) (c : Nat)
    (hl : d.length = n) (hn : 0 < n) (hocc : numOccupied d < n) :
    ∃ j, j < n ∧ d.getD j none = none ∧
      placeLoop d n s c (hash s n) n = d.set j (some (s, c)) ∧
      ∀ t, t < probeDist (hash s n) j n → d.getD ((hash s n + t) % n) none ≠ none := by
  obtain ⟨j, hjn, hg, hp, hpath⟩ := probe_empty hl hn (hash_lt s hn) hocc
  refine ⟨j, hjn, hg, ?_, hpath⟩
  rw [placeLoop_eq_probeIdx, hp]

/-- Invariant of the migration fold of `growHashTable`: the new store keeps
its length, accumulates exactly the processed entries, and satisfies the
probe-path invariant throughout. -/
theorem growFold_spec (ns : Nat) (hns : 0 < ns) :
    ∀ (old nd : List Word),
      nd.length = ns →
      numOccupied nd + numOccupied old ≤ ns →
      ProbeInv nd ns →
      (old.foldl (growStep ns) nd).length = ns ∧
      List.Perm (occEntries (old.foldl (growStep ns) nd)) (occEntries old ++ occEntries nd) ∧
      numOccupied (old.foldl (growStep ns) nd) = numOccupied old + numOccupied nd ∧
      ProbeInv (old.foldl (growStep ns) nd) ns
  | [], nd, hl, _, hinv => by
    refine ⟨hl, ?_, ?_, hinv⟩
    · show List.Perm (occEntries nd) (occEntries ([] : List Word) ++ occEntries nd)
      rw [occEntries_nil, List.nil_append]
    · show numOccupied nd = numOccupied ([] : List Word) + numOccupied nd
      have h0 : numOccupied ([] : List Word) = 0 := rfl
      omega
  | none :: old, nd, hl, hroom, hinv => by
    have hco : numOccupied (none :: old) = numOccupied old := by
      simp [numOccupied, occEntries]
    have hro : numOccupied nd + numOccupied old ≤ ns := by omega
    have ih := growFold_spec ns hns old nd hl hro hinv
    refine ⟨ih.1, ?_, ?_, ih.2.2.2⟩
    · rw [occEntries_cons_none]
      exact ih.2.1
    · have h1 := ih.2.2.1
      rw [hco]
      exact h1
  | some (s, c) :: old, nd, hl, hroom, hinv => by
    have hocc_cons : numOccupied (some (s, c) :: old) = numOccupied old + 1 := by
      simp [numOccupied, occEntries]
    have hocc_nd : numOccupied nd < ns := by omega
    obtain ⟨j, hjn, hg, hpl, hpath⟩ := placeLoop_spec s c hl hns hocc_nd
    have hjd : j < nd.length := by rw [hl]; exact hjn
    have hl₁ : (nd.set j (some (s, c))).length = ns := by
      rw [List.length_set]; exact hl
    have hperm₁ : List.Perm (occEntries (nd.set j (some (s, c)))) ((s, c) :: occEntries nd) :=
      occ_set_empty nd j (s, c) hjd hg
    have hn₁ : numOccupied (nd.set j (some (s, c))) = numOccupied nd + 1 :=
      numOccupied_set_empty nd j (s, c) hjd hg
    have hinv₁ : ProbeInv (nd.set j (some (s, c))) ns := by
      refine probeInv_of occupied_mono_set ?_ hinv
      intro k s₂ c₂ hk
      by_cases hkj : j = k
      · subst hkj
        rw [getD_set_self nd j (some (s, c)) hjd] at hk
        have hsc : s = s₂ ∧ c = c₂ := by
          have := Option.some.inj hk
          exact ⟨congrArg Prod.fst this, congrArg Prod.snd this⟩
        right
        rw [← hsc.1]
        exact hpath
      · rw [getD_set_ne nd j k (some (s, c)) hkj] at hk
        exact Or.inl ⟨c₂, hk⟩
    have hro₁ : numOccupied (nd.set j (some (s, c))) + numOccupied old ≤ ns := by
      omega
    have ih := growFold_spec ns hns old (nd.set j (some (s, c))) hl₁ hro₁ hinv₁
    have hstep : (some (s, c) :: old).foldl (growStep ns) nd
        = old.foldl (growStep ns) (nd.set j (some (s, c))) := by
      show old.foldl (growStep ns) (growStep ns nd (some (s, c)))
          = old.foldl (growStep ns) (nd.set j (some (s, c)))
      rw [show growStep ns nd (some (s, c)) = nd.set j (some (s, c)) from hpl]
    rw [hstep]
    refine ⟨ih.1, ?_, ?_, ih.2.2.2⟩
    · rw [occEntries_cons_some]
      exact ih.2.1.trans ((hperm₁.append_left (occEntries old)).trans List.perm_middle)
    · have h1 := ih.2.2.1
      omega

/-! ### The reachable-table invariant -/

theorem Good.nodup {ht : HashTable} {strs : List Str} (h : Good ht strs) :
    ((occEntries ht.dict).map Prod.fst).Nodup :=
  ((h.hperm.map Prod.fst).nodup_iff).2 (modelList_good strs).nodup

theorem Good.uniq {ht : HashTable} {strs : List Str} (h : Good ht strs) :
    ∀ (j k : Nat) (s : Str) (c c' : Nat),
      ht.dict.getD j none = some (s, c) → ht.dict.getD k none = some (s, c') → j = k :=
  uniq_of_nodup ht.dict h.nodup

/-- Growing a reachable table preserves the invariant (for the same
insertion sequence). -/
theorem grow_good {ht : HashTable} {strs : List Str} (h : Good ht strs) :
    Good (growHashTable ht) strs := by
  have hgf : HASH_GROWTH_FACTOR = 2 := rfl
  have hns : 0 < ht.size * HASH_GROWTH_FACTOR := by
    have := h.hpos
    rw [hgf]
    omega
  have hrep : (List.replicate (ht.size * HASH_GROWTH_FACTOR) (none : Word)).length
      = ht.size * HASH_GROWTH_FACTOR := List.length_replicate _ _
  have hoccr : occEntries (List.replicate (ht.size * HASH_GROWTH_FACTOR) (none : Word)) = [] :=
    occEntries_replicate _
  have hnumr : numOccupied (List.replicate (ht.size * HASH_GROWTH_FACTOR) (none : Word)) = 0 := by
    rw [numOccupied, hoccr]
    rfl
  have hroom : numOccupied (List.replicate (ht.size * HASH_GROWTH_FACTOR) (none : Word))
      + numOccupied ht.dict ≤ ht.size * HASH_GROWTH_FACTOR := by
    have h1 : numOccupied ht.dict ≤ ht.size := h.hlen ▸ numOccupied_le_length ht.dict
    rw [hnumr, hgf]
    omega
  have hinvr : ProbeInv (List.replicate (ht.size * HASH_GROWTH_FACTOR) (none : Word))
      (ht.size * HASH_GROWTH_FACTOR) := by
    intro j s c hj
    rw [getD_replicate_none] at hj
    exact Option.noConfusion hj
  obtain ⟨hL, hP, hN, hI⟩ := growFold_spec (ht.size * HASH_GROWTH_FACTOR) hns ht.dict
    (List.replicate (ht.size * HASH_GROWTH_FACTOR) none) hrep hroom hinvr
  refine ⟨hL, hns, ?_, ?_, ?_, hI⟩
  · show 4 * ht.count ≤ 3 * (ht.size * HASH_GROWTH_FACTOR)
    have := h.hload
    rw [hgf]
    omega
  · show numOccupied (growHashTable ht).dict = ht.count
    have hc := h.hcount
    rw [show (growHashTable ht).dict
        = ht.dict.foldl (growStep (ht.size * HASH_GROWTH_FACTOR))
          (List.replicate (ht.size * HASH_GROWTH_FACTOR) none) from rfl, hN, hnumr]
    omega
  · show List.Perm (occEntries (growHashTable ht).dict) (modelList strs)
    have hP' : List.Perm (occEntries (growHashTable ht).dict) (occEntries ht.dict) := by
      have hq := hP
      rw [hoccr, List.append_nil] at hq
      exact hq
    exact hP'.trans h.hperm

/-! ### Insertion preserves the invariant -/

theorem modelList_concat (strs : List Str) (s : Str) :
    modelList (strs ++ [s]) = modelAdd (modelList strs) s := by
  unfold modelList
  rw [List.foldl_append]
  rfl

/-- On a reachable table, probing for a string that occupies slot `j` runs
the update path of `addString`: only slot `j` changes, its count goes up. -/
theorem addLoop_present {ht1 : HashTable} {strs : List Str} (h1 : Good ht1 strs)
    {str : Str} {j c : Nat} (hgj : ht1.dict.getD j none = some (str, c)) :
    addLoop ht1.dict ht1.size str (hash str ht1.size) ht1.size
      = some (ht1.dict.set j (some (str, c + 1)), false) := by
  have hprobe := probe_present h1.hlen h1.hpos h1.uniq h1.hprobe hgj
  rw [addLoop_eq_probeIdx, hprobe, Option.map_some', hgj]

/-- On a reachable table, probing for a string held by no slot runs the
insert path of `addString`: a first empty slot on the path receives it. -/
theorem addLoop_absent {ht1 : HashTable} {strs : List Str} (h1 : Good ht1 strs)
    {str : Str} (habs : str ∉ strs) :
    ∃ j, j < ht1.size ∧ ht1.dict.getD j none = none ∧
      addLoop ht1.dict ht1.size str (hash str ht1.size) ht1.size
        = some (ht1.dict.set j (some (str, 1)), true) ∧
      ∀ t, t < probeDist (hash str ht1.size) j ht1.size →
        ht1.dict.getD ((hash str ht1.size + t) % ht1.size) none ≠ none := by
  have habs_dict : ∀ (j c : Nat), ht1.dict.getD j none ≠ some (str, c) := by
    intro j c hc
    have hso : str ∈ (occEntries ht1.dict).map Prod.fst :=
      List.mem_map_of_mem Prod.fst (mem_occ_of_getD _ j _ hc)
    have hsm : str ∈ (modelList strs).map Prod.fst := (h1.hperm.map Prod.fst).mem_iff.1 hso
    exact habs (((modelList_good strs).mem str).1 hsm)
  have hocc : numOccupied ht1.dict < ht1.size := by
    have ha := h1.hload
    have hb := h1.hpos
    have hc := h1.hcount
    omega
  obtain ⟨j, hjn, hg, hp, hpath⟩ := probe_absent h1.hlen h1.hpos habs_dict hocc
  refine ⟨j, hjn, hg, ?_, hpath⟩
  rw [addLoop_eq_probeIdx, hp, Option.map_some', hg]

/-- The update path preserves the invariant. -/
theorem good_update {ht1 : HashTable} {strs : List Str} (h1 : Good ht1 strs)
    {str : Str} {j c : Nat} (hgj : ht1.dict.getD j none = some (str, c)) :
    Good { dict := ht1.dict.set j (some (str, c + 1)), size := ht1.size, count := ht1.count }
      (strs ++ [str]) := by
  have hjd : j < ht1.dict.length := getD_some_lt hgj
  have hso : str ∈ (occEntries ht1.dict).map Prod.fst :=
    List.mem_map_of_mem Prod.fst (mem_occ_of_getD _ j _ hgj)
  have hsm : str ∈ (modelList strs).map Prod.fst := (h1.hperm.map Prod.fst).mem_iff.1 hso
  have hbump : occEntries (ht1.dict.set j (some (str, c + 1))) = bump (occEntries ht1.dict) str :=
    occ_set_bump ht1.dict j str c hjd hgj h1.nodup
  refine ⟨?_, h1.hpos, h1.hload, ?_, ?_, ?_⟩
  · show (ht1.dict.set j (some (str, c + 1))).length = ht1.size
    rw [List.length_set]
    exact h1.hlen
  · show numOccupied (ht1.dict.set j (some (str, c + 1))) = ht1.count
    rw [numOccupied, hbump, bump, List.length_map]
    exact h1.hcount
  · show List.Perm (occEntries (ht1.dict.set j (some (str, c + 1)))) (modelList (strs ++ [str]))
    rw [hbump, modelList_concat, modelAdd, if_pos hsm]
    exact h1.hperm.map _
  · show ProbeInv (ht1.dict.set j (some (str, c + 1))) ht1.size
    refine probeInv_of occupied_mono_set ?_ h1.hprobe
    intro k s₂ c₂ hk
    by_cases hkj : j = k
    · subst hkj
      rw [getD_set_self ht1.dict j (some (str, c + 1)) hjd] at hk
      have hs₂ : str = s₂ := congrArg Prod.fst (Option.some.inj hk)
      exact Or.inl ⟨c, hs₂ ▸ hgj⟩
    · rw [getD_set_ne ht1.dict j k (some (str, c + 1)) hkj] at hk
      exact Or.inl ⟨c₂, hk⟩

/-- The insert path preserves the invariant, given headroom for the new
entry. -/
theorem good_insert {ht1 : HashTable} {strs : List Str} (h1 : Good ht1 strs)
    {str : Str} {j : Nat} (habs : str ∉ strs)
    (hload1 : 4 * (ht1.count + 1) ≤ 3 * ht1.size)
    (hjn : j < ht1.size) (hg : ht1.dict.getD j none = none)
    (hpath : ∀ t, t < probeDist (hash str ht1.size) j ht1.size →
      ht1.dict.getD ((hash str ht1.size + t) % ht1.size) none ≠ none) :
    Good { dict := ht1.dict.set j (some (str, 1)), size := ht1.size, count := ht1.count + 1 }
      (strs ++ [str]) := by
  have hjd : j < ht1.dict.length := by rw [h1.hlen]; exact hjn
  have hsm : str ∉ (modelList strs).map Prod.fst :=
    fun hc => habs (((modelList_good strs).mem str).1 hc)
  have hperm₁ := occ_set_empty ht1.dict j (str, 1) hjd hg
  refine ⟨?_, h1.hpos, hload1, ?_, ?_, ?_⟩
  · show (ht1.dict.set j (some (str, 1))).length = ht1.size
    rw [List.length_set]
    exact h1.hlen
  · show numOccupied (ht1.dict.set j (some (str, 1))) = ht1.count + 1
    rw [numOccupied_set_empty ht1.dict j (str, 1) hjd hg, h1.hcount]
  · show List.Perm (occEntries (ht1.dict.set j (some (str, 1)))) (modelList (strs ++ [str]))
    rw [modelList_concat, modelAdd, if_neg hsm]
    refine hperm₁.trans ((h1.hperm.cons (str, 1)).trans ?_)
    exact (List.perm_append_singleton (str, 1) (modelList strs)).symm
  · show ProbeInv (ht1.dict.set j (some (str, 1))) ht1.size
    refine probeInv_of occupied_mono_set ?_ h1.hprobe
    intro k s₂ c₂ hk
    by_cases hkj : j = k
    · subst hkj
      rw [getD_set_self ht1.dict j (some (str, 1)) hjd] at hk
      have hs₂ : str = s₂ := congrArg Prod.fst (Option.some.inj hk)
      right
      rw [← hs₂]
      exact hpath
    · rw [getD_set_ne ht1.dict j k (some (str, 1)) hkj] at hk
      exact Or.inl ⟨c₂, hk⟩

/-- One insertion preserves the invariant, recording the inserted string. -/
theorem good_addString {ht : HashTable} {strs : List Str} (h : Good ht strs) (str : Str) :
    Good (addString ht str) (strs ++ [str]) := by
  have h1 : Good (if loadFactorExceeded ht then growHashTable ht else ht) strs := by
    by_cases hx : loadFactorExceeded ht = true
    · rw [if_pos hx]
      exact grow_good h
    · rw [if_neg hx]
      exact h
  have hload1 : 4 * ((if loadFactorExceeded ht then growHashTable ht else ht).count + 1)
      ≤ 3 * (if loadFactorExceeded ht then growHashTable ht else ht).size := by
    by_cases hx : loadFactorExceeded ht = true
    · rw [if_pos hx]
      show 4 * (ht.count + 1) ≤ 3 * (ht.size * HASH_GROWTH_FACTOR)
      have ha := h.hload
      have hb := h.hpos
      have hgf : HASH_GROWTH_FACTOR = 2 := rfl
      rw [hgf]
      omega
    · rw [if_neg hx]
      have hc : ¬ (4 * (ht.count + 1) > 3 * ht.size) := fun hc => hx (decide_eq_true hc)
      omega
  show Good
    (addStringPost (if loadFactorExceeded ht then growHashTable ht else ht)
      (addLoop (if loadFactorExceeded ht then growHashTable ht else ht).dict
        (if loadFactorExceeded ht then growHashTable ht else ht).size str
        (hash str (if loadFactorExceeded ht then growHashTable ht else ht).size)
        (if loadFactorExceeded ht then growHashTable ht else ht).size))
    (strs ++ [str])
  by_cases hmem : str ∈ strs
  · have hsm : str ∈ (modelList strs).map Prod.fst := ((modelList_good strs).mem str).2 hmem
    have hso : str ∈ (occEntries (if loadFactorExceeded ht then growHashTable ht else ht).dict).map
        Prod.fst := (h1.hperm.map Prod.fst).mem_iff.2 hsm
    obtain ⟨p, hp, hps⟩ := List.mem_map.1 hso
    obtain ⟨j, hjlen, hgj⟩ := getD_of_mem_occ _ p hp
    have hgj' : (if loadFactorExceeded ht then growHashTable ht else ht).dict.getD j none
        = some (str, p.2) := by
      rw [hgj]
      cases p
      simp_all
    rw [addLoop_present h1 hgj']
    exact good_update h1 hgj'
  · obtain ⟨j, hjn, hg, hloop, hpath⟩ := addLoop_absent h1 hmem
    rw [hloop]
    exact good_insert h1 hmem hload1 hjn hg hpath

/-- Tables created with a positive capacity satisfy the invariant with the
empty insertion sequence. -/
theorem good_create {sz : Nat} (hsz : 0 < sz) : Good (createHashTable sz) [] := by
  refine ⟨List.length_replicate _ _, hsz, ?_, ?_, ?_, ?_⟩
  · show 4 * 0 ≤ 3 * sz
    omega
  · show numOccupied (List.replicate sz none) = 0
    rw [numOccupied, occEntries_replicate]
    rfl
  · show List.Perm (occEntries (List.replicate sz none)) (modelList [])
    rw [occEntries_replicate]
    exact List.Perm.refl _
  · intro j s c hj
    have hj' : (List.replicate sz (none : Word)).getD j none = some (s, c) := hj
    rw [getD_replicate_none] at hj'
    exact Option.noConfusion hj'

theorem good_fold : ∀ (strs acc : List Str) (ht : HashTable), Good ht acc →
    Good (strs.foldl addString ht) (acc ++ strs)
  | [], acc, ht, h => by rw [List.append_nil]; exact h
  | s :: strs, acc, ht, h => by
    have h2 := good_fold strs (acc ++ [s]) (addString ht s) (good_addString h s)
    rw [List.append_assoc] at h2
    exact h2

/-- Every reachable table satisfies the invariant. -/
theorem good_buildTable (sz : Nat) (strs : List Str) (hsz : 0 < sz) :
    Good (buildTable sz strs) strs := by
  have h := good_fold strs [] (createHashTable sz) (good_create hsz)
  rw [List.nil_append] at h
  exact h

/-! ### Small corollaries used by the claim theorems -/

theorem probeInv_replicate (n m : Nat) : ProbeInv (List.replicate m none) n := by
  intro j s c hj
  rw [getD_replicate_none] at hj
  exact Option.noConfusion hj

/-- A string not in the insertion sequence occupies no slot. -/
theorem absent_dict {ht : HashTable} {strs : List Str} (h : Good ht strs) {str : Str}
    (habs : str ∉ strs) : ∀ (j c : Nat), ht.dict.getD j none ≠ some (str, c) := by
  intro j c hc
  have hso : str ∈ (occEntries ht.dict).map Prod.fst :=
    List.mem_map_of_mem Prod.fst (mem_occ_of_getD _ j _ hc)
  have hsm : str ∈ (modelList strs).map Prod.fst := (h.hperm.map Prod.fst).mem_iff.1 hso
  exact habs (((modelList_good strs).mem str).1 hsm)

/-- A reachable table always has an empty slot. -/
theorem occupied_lt_size {ht : HashTable} {strs : List Str} (h : Good ht strs) :
    numOccupied ht.dict < ht.size := by
  have ha := h.hload
  have hb := h.hpos
  have hc := h.hcount
  omega

/-- Destructuring the outcome of the probe loop never changes the capacity. -/
theorem addStringPost_size (ht1 : HashTable) (r : Option (List Word × Bool)) :
    (addStringPost ht1 r).size = ht1.size := by
  rcases r with _ | ⟨d, b⟩
  · rfl
  · cases b
    · rfl
    · rfl

/-- The capacity after an insertion is the capacity after the optional
growth, whatever the probe outcome. -/
theorem addString_size (ht : HashTable) (str : Str) :
    (addString ht str).size = (if loadFactorExceeded ht then growHashTable ht else ht).size := by
  show (addStringPost (if loadFactorExceeded ht then growHashTable ht else ht)
      (addLoop (if loadFactorExceeded ht then growHashTable ht else ht).dict
        (if loadFactorExceeded ht then growHashTable ht else ht).size str
        (hash str (if loadFactorExceeded ht then growHashTable ht else ht).size)
        (if loadFactorExceeded ht then growHashTable ht else ht).size)).size
    = (if loadFactorExceeded ht then growHashTable ht else ht).size
  exact addStringPost_size _ _

/-- When the growth test fires, the insertion doubles the capacity before
placing anything. -/
theorem addString_size_of_exceeded {ht : HashTable} (str : Str)
    (hx : loadFactorExceeded ht = true) :
    (addString ht str).size = 2 * ht.size := by
  rw [addString_size, if_pos hx]
  show ht.size * HASH_GROWTH_FACTOR = 2 * ht.size
  have hgf : HASH_GROWTH_FACTOR = 2 := rfl
  rw [hgf]
  omega

/-- The float comparison in `addString` agrees with its exact rational
reading on every table with a positive capacity. -/
theorem recalc_iff {ht : HashTable} (hpos : 0 < ht.size) :
    recalcLoadFactor ht > 3 / 4 ↔ loadFactorExceeded ht = true := by
  have hs : (0 : ℚ) < (ht.size : ℚ) := by exact_mod_cast hpos
  unfold recalcLoadFactor loadFactorExceeded
  rw [decide_eq_true_iff, gt_iff_lt, div_lt_div_iff₀ (by norm_num) hs]
  constructor
  · intro hlt
    have hq : (3 * ht.size : ℚ) < (4 * (ht.count + 1) : ℚ) := by linarith
    exact_mod_cast hq
  · intro hlt
    have hq : (3 * ht.size : ℚ) < (4 * (ht.count + 1) : ℚ) := by exact_mod_cast hlt
    push_cast at hq
    linarith

/-- When the growth test does not fire and the string is present, the whole
insertion is exactly one counter increment in the matching slot. -/
theorem addString_no_grow {ht : HashTable} {strs : List Str} (h : Good ht strs) {str : Str}
    {j c : Nat} (hx : loadFactorExceeded ht = false)
    (hslot : ht.dict.getD j none = some (str, c)) :
    addString ht str
      = { dict := ht.dict.set j (some (str, c + 1)), size := ht.size, count := ht.count } := by
  have hite : (if loadFactorExceeded ht then growHashTable ht else ht) = ht := by
    rw [hx]
    simp
  show addStringPost (if loadFactorExceeded ht then growHashTable ht else ht)
      (addLoop (if loadFactorExceeded ht then growHashTable ht else ht).dict
        (if loadFactorExceeded ht then growHashTable ht else ht).size str
        (hash str (if loadFactorExceeded ht then growHashTable ht else ht).size)
        (if loadFactorExceeded ht then growHashTable ht else ht).size)
    = { dict := ht.dict.set j (some (str, c + 1)), size := ht.size, count := ht.count }
  rw [hite, addLoop_present h hslot]
  rfl

/-! ### Claim theorems -/

/-- Claim C1: for every sequence of insertions via `addString` of strings
into a table created by `createHashTable` (with a positive capacity), the
resulting table has no two occupied slots holding equal strings, the number
of occupied slots equals the number of distinct strings inserted, and each
occupied slot's count equals the multiplicity of its string in the input
sequence. -/
theorem claim_C1_uniqueness_and_counts (sz : Nat) (strs : List Str) (hsz : 0 < sz) :
    (∀ (j k : Nat) (s : Str) (c c' : Nat),
      (buildTable sz strs).dict.getD j none = some (s, c) →
      (buildTable sz strs).dict.getD k none = some (s, c') → j = k) ∧
    numOccupied (buildTable sz strs).dict = strs.dedup.length ∧
    (∀ (j : Nat) (s : Str) (c : Nat),
      (buildTable sz strs).dict.getD j none = some (s, c) → c = strs.count s) := by
  have h := good_buildTable sz strs hsz
  refine ⟨h.uniq, ?_, ?_⟩
  · have h1 : numOccupied (buildTable sz strs).dict = (modelList strs).length := by
      rw [numOccupied, h.hperm.length_eq]
    rw [h1, (modelList_good strs).len, List.card_toFinset]
  · intro j s c hj
    have hmem : (s, c) ∈ modelList strs := h.hperm.subset (mem_occ_of_getD _ j _ hj)
    exact (modelList_good strs).cnt (s, c) hmem

/-- Witness for C1 at a concrete input. -/
theorem claim_C1_witness :
    0 < 11 ∧
    ((∀ (j k : Nat) (s : Str) (c c' : Nat),
      (buildTable 11 [[104], [105], [104]]).dict.getD j none = some (s, c) →
      (buildTable 11 [[104], [105], [104]]).dict.getD k none = some (s, c') → j = k) ∧
    numOccupied (buildTable 11 [[104], [105], [104]]).dict = [[104], [105], [104]].dedup.length ∧
    (∀ (j : Nat) (s : Str) (c : Nat),
      (buildTable 11 [[104], [105], [104]]).dict.getD j none = some (s, c) →
        c = [[104], [105], [104]].count s)) :=
  ⟨by norm_num, claim_C1_uniqueness_and_counts 11 [[104], [105], [104]] (by norm_num)⟩

/-- Claim C2: after every insertion into a reachable table the live count
divided by the capacity is at most 0.75, and whenever the prospective load
factor `(count + 1) / size` exceeds 0.75 the table is grown (capacity
doubled) before the new entry is placed. -/
theorem claim_C2_load_factor (sz : Nat) (strs : List Str) (str : Str) (hsz : 0 < sz) :
    ((addString (buildTable sz strs) str).count : ℚ)
        / ((addString (buildTable sz strs) str).size : ℚ) ≤ 3 / 4 ∧
    (recalcLoadFactor (buildTable sz strs) > 3 / 4 →
      (addString (buildTable sz strs) str).size = 2 * (buildTable sz strs).size) := by
  have h := good_buildTable sz strs hsz
  have h' : Good (addString (buildTable sz strs) str) (strs ++ [str]) := good_addString h str
  constructor
  · have ha := h'.hload
    have hb := h'.hpos
    have hs : (0 : ℚ) < ((addString (buildTable sz strs) str).size : ℚ) := by exact_mod_cast hb
    rw [div_le_div_iff₀ hs (by norm_num)]
    have hq : ((addString (buildTable sz strs) str).count : ℚ) * 4
        ≤ 3 * ((addString (buildTable sz strs) str).size : ℚ) := by
      have hn : (addString (buildTable sz strs) str).count * 4
          ≤ 3 * (addString (buildTable sz strs) str).size := by omega
      exact_mod_cast hn
    linarith
  · intro hlf
    exact addString_size_of_exceeded str ((recalc_iff h.hpos).1 hlf)

/-- Witness for C2 at a concrete input. -/
theorem claim_C2_witness :
    0 < 11 ∧
    (((addString (buildTable 11 []) [104]).count : ℚ)
        / ((addString (buildTable 11 []) [104]).size : ℚ) ≤ 3 / 4 ∧
    (recalcLoadFactor (buildTable 11 []) > 3 / 4 →
      (addString (buildTable 11 []) [104]).size = 2 * (buildTable 11 []).size)) :=
  ⟨by norm_num, claim_C2_load_factor 11 [] [104] (by norm_num)⟩

/-- Claim C3: growing any well-formed table doubles the capacity, keeps the
live count, and the multiset of (string, count) entries of the new store is
exactly that of the original: nothing lost, duplicated, or corrupted. -/
theorem claim_C3_growth_preserves (ht : HashTable) (hpos : 0 < ht.size)
    (hlen : ht.dict.length = ht.size) :
    (growHashTable ht).size = 2 * ht.size ∧
    (growHashTable ht).count = ht.count ∧
    List.Perm (occEntries (growHashTable ht).dict) (occEntries ht.dict) := by
  have hgf : HASH_GROWTH_FACTOR = 2 := rfl
  have hns : 0 < ht.size * HASH_GROWTH_FACTOR := by rw [hgf]; omega
  have hoccr : occEntries (List.replicate (ht.size * HASH_GROWTH_FACTOR) (none : Word)) = [] :=
    occEntries_replicate _
  have hnumr : numOccupied (List.replicate (ht.size * HASH_GROWTH_FACTOR) (none : Word)) = 0 := by
    rw [numOccupied, hoccr]
    rfl
  have hroom : numOccupied (List.replicate (ht.size * HASH_GROWTH_FACTOR) (none : Word))
      + numOccupied ht.dict ≤ ht.size * HASH_GROWTH_FACTOR := by
    have h1 : numOccupied ht.dict ≤ ht.size := hlen ▸ numOccupied_le_length ht.dict
    rw [hnumr, hgf]
    omega
  obtain ⟨hL, hP, hN, hI⟩ := growFold_spec (ht.size * HASH_GROWTH_FACTOR) hns ht.dict
    (List.replicate (ht.size * HASH_GROWTH_FACTOR) none) (List.length_replicate _ _) hroom
    (probeInv_replicate _ _)
  refine ⟨?_, rfl, ?_⟩
  · show ht.size * HASH_GROWTH_FACTOR = 2 * ht.size
    rw [hgf]
    omega
  · have hq := hP
    rw [hoccr, List.append_nil] at hq
    exact hq

/-- Witness for C3 at a concrete table. -/
theorem claim_C3_witness :
    (growHashTable sampleTable).size = 2 * sampleTable.size ∧
    (growHashTable sampleTable).count = sampleTable.count ∧
    List.Perm (occEntries (growHashTable sampleTable).dict) (occEntries sampleTable.dict) :=
  claim_C3_growth_preserves sampleTable (by norm_num [sampleTable]) (by rfl)

/-- Claim C4: for every string and positive capacity, `hash` equals the
spec's polynomial rolling hash (accumulator 0, each step
`(acc * 37 + character) mod capacity`), lands in `[0, capacity)`, and every
appended character contributes one further rolling step. -/
theorem claim_C4_hash (str : Str) (capacity : Nat) (hc : 0 < capacity) :
    hash str capacity = hashSpec str capacity ∧
    hash str capacity < capacity ∧
    ∀ c : Nat, hash (str ++ [c]) capacity = (hash str capacity * HASH_MAGIC + c) % capacity := by
  refine ⟨?_, hash_lt str hc, ?_⟩
  · have haux : ∀ (l : Str) (acc : Nat),
        l.foldl (fun h c => (h * HASH_MAGIC + c) % capacity) acc = hashSpecAux capacity acc l := by
      intro l
      induction l with
      | nil => intro acc; rfl
      | cons c cs ih => intro acc; exact ih _
    exact haux str 0
  · intro c
    rw [hash, hash, List.foldl_append]
    rfl

/-- Witness for C4 at a concrete input. -/
theorem claim_C4_witness :
    0 < 11 ∧
    (hash [104, 105] 11 = hashSpec [104, 105] 11 ∧
    hash [104, 105] 11 < 11 ∧
    ∀ c : Nat, hash ([104, 105] ++ [c]) 11 = (hash [104, 105] 11 * HASH_MAGIC + c) % 11) :=
  ⟨by norm_num, claim_C4_hash [104, 105] 11 (by norm_num)⟩

set_option maxRecDepth 20000 in
/-- Claim C5 (code bug): `addString` performs no validation at all.  The
65-byte string below is rejected by `checkString`, yet inserting it into a
fresh table succeeds and mutates the table (one occupied slot, live count
1) with no error signalled; the claimed fail-closed behavior does not
exist in the code (and a NULL string would be dereferenced inside `hash`). -/
theorem claim_C5_no_validation :
    checkString (some (List.replicate 65 97)) = -1 ∧
    (addString (createHashTable 11) (List.replicate 65 97)).count = 1 ∧
    numOccupied (addString (createHashTable 11) (List.replicate 65 97)).dict = 1 := by
  refine ⟨by decide, by decide, by decide⟩

set_option maxRecDepth 20000 in
/-- Claim C7, counterexample: a reachable table of capacity 11 holding 8
entries has `[97]` in slot 9; re-inserting the already-present `[97]` fires
the pre-insertion growth check, so the capacity changes from 11 to 22 —
contradicting the claim that capacity is unchanged on the update path. -/
theorem claim_C7_counterexample :
    (buildTable 11 [[97], [98], [99], [100], [101], [102], [103], [104]]).dict.getD 9 none
      = some ([97], 1) ∧
    (buildTable 11 [[97], [98], [99], [100], [101], [102], [103], [104]]).size = 11 ∧
    (addString (buildTable 11 [[97], [98], [99], [100], [101], [102], [103], [104]]) [97]).size
      = 22 := by
  refine ⟨by decide, by decide, by decide⟩

/-- Claim C7, amended: on a reachable table, inserting a string already
present in slot `j` takes the update path — provided the pre-insertion
growth check does not fire (`4 * (count + 1) ≤ 3 * size`, as forced by the
counterexample).  Then only slot `j` changes (its count incremented), and
capacity, live count and every other slot are untouched. -/
theorem claim_C7_update_path (sz : Nat) (strs : List Str) (str : Str) (j c : Nat)
    (hsz : 0 < sz)
    (hslot : (buildTable sz strs).dict.getD j none = some (str, c))
    (hnogrow : 4 * ((buildTable sz strs).count + 1) ≤ 3 * (buildTable sz strs).size) :
    (addString (buildTable sz strs) str).size = (buildTable sz strs).size ∧
    (addString (buildTable sz strs) str).count = (buildTable sz strs).count ∧
    (addString (buildTable sz strs) str).dict
      = (buildTable sz strs).dict.set j (some (str, c + 1)) := by
  have h := good_buildTable sz strs hsz
  have hx : loadFactorExceeded (buildTable sz strs) = false := by
    unfold loadFactorExceeded
    rw [decide_eq_false_iff_not]
    omega
  rw [addString_no_grow h hx hslot]
  exact ⟨rfl, rfl, rfl⟩

/-- Witness for the amended C7 at a concrete input. -/
theorem claim_C7_witness :
    (addString (buildTable 11 [[97], [98]]) [97]).size = (buildTable 11 [[97], [98]]).size ∧
    (addString (buildTable 11 [[97], [98]]) [97]).count = (buildTable 11 [[97], [98]]).count ∧
    (addString (buildTable 11 [[97], [98]]) [97]).dict
      = (buildTable 11 [[97], [98]]).dict.set 9 (some ([97], 2)) :=
  claim_C7_update_path 11 [[97], [98]] [97] 9 1 (by norm_num) (by decide) (by decide)

/-- Claim C8 (count query modelled from the spec, absent from the source):
on every reachable table, a string that was inserted is found by
`countForString` with its exact multiplicity, and a string never inserted
is a miss. -/
theorem claim_C8_round_trip (sz : Nat) (strs : List Str) (str : Str) (hsz : 0 < sz) :
    (str ∈ strs → countForString (buildTable sz strs) str = some (strs.count str)) ∧
    (str ∉ strs → countForString (buildTable sz strs) str = none) := by
  have h := good_buildTable sz strs hsz
  constructor
  · intro hmem
    have hsm : str ∈ (modelList strs).map Prod.fst := ((modelList_good strs).mem str).2 hmem
    have hso : str ∈ (occEntries (buildTable sz strs).dict).map Prod.fst :=
      (h.hperm.map Prod.fst).mem_iff.2 hsm
    obtain ⟨p, hp, hps⟩ := List.mem_map.1 hso
    obtain ⟨j, hjlen, hgj⟩ := getD_of_mem_occ _ p hp
    have hgj' : (buildTable sz strs).dict.getD j none = some (str, p.2) := by
      rw [hgj]
      cases p
      simp_all
    have hc : p.2 = strs.count str := by
      have hcnt := (modelList_good strs).cnt p (h.hperm.subset hp)
      rw [hps] at hcnt
      exact hcnt
    have hprobe := probe_present h.hlen h.hpos h.uniq h.hprobe hgj'
    unfold countForString
    rw [countLoop_eq_probeIdx, hprobe, Option.some_bind]
    show (match (buildTable sz strs).dict.getD j none with
      | none => none
      | some p => if p.1 = str then some p.2 else none) = some (strs.count str)
    rw [hgj']
    show (if str = str then some p.2 else none) = some (strs.count str)
    rw [if_pos rfl, hc]
  · intro hmem
    obtain ⟨j, hjn, hg, hp, hpath⟩ :=
      probe_absent h.hlen h.hpos (absent_dict h hmem) (occupied_lt_size h)
    unfold countForString
    rw [countLoop_eq_probeIdx, hp, Option.some_bind]
    show (match (buildTable sz strs).dict.getD j none with
      | none => none
      | some p => if p.1 = str then some p.2 else none) = none
    rw [hg]

set_option maxRecDepth 20000 in
/-- Witness for C8 at a concrete input. -/
theorem claim_C8_witness :
    countForString (buildTable 11 [[104], [105], [104]]) [104] = some 2 := by
  have hh := (claim_C8_round_trip 11 [[104], [105], [104]] [104] (by norm_num)).1 (by decide)
  rw [hh]
  decide

set_option maxRecDepth 20000 in
/-- Claim C9 (code bug): the lookup-table builder iterates with the size of
the decayed pointer argument (9 indices on LP64), not the element count.
For the 12-character illegal set a..l, the entry of the character
`j` (code 106) stays 0 even though 106 is in the set, contradicting the
claim that exactly the given set is marked, regardless of its size. -/
theorem claim_C9_lookup_bug :
    (106 ∈ [97, 98, 99, 100, 101, 102, 103, 104, 105, 106, 107, 108]) ∧
    (createLookupTable [97, 98, 99, 100, 101, 102, 103, 104, 105, 106, 107, 108]).getD 106 0
      = 0 ∧
    (createLookupTable [97, 98, 99, 100, 101, 102, 103, 104, 105, 106, 107, 108]).getD 105 0
      = 1 ∧
    (createLookupTable [97, 98, 99, 100, 101, 102, 103, 104, 105, 106, 107, 108]).length
      = 128 := by
  refine ⟨by decide, by decide, by decide, by decide⟩

/-- Claim C10: the validator accepts exactly the non-null strings whose
length lies in [MIN_STRING_SIZE, MAX_STRING_SIZE] = [1, 64], returning 0,
and returns -1 in every other case. -/
theorem claim_C10_check_string :
    MIN_STRING_SIZE = 1 ∧ MAX_STRING_SIZE = 64 ∧
    ∀ s : Option Str,
      (checkString s = 0 ↔ ∃ l, s = some l ∧ 1 ≤ l.length ∧ l.length ≤ 64) ∧
      (checkString s = 0 ∨ checkString s = -1) := by
  refine ⟨rfl, rfl, ?_⟩
  intro s
  match s with
  | none =>
    refine ⟨⟨fun h => ?_, fun h => ?_⟩, Or.inr rfl⟩
    · exact absurd h (by norm_num [checkString])
    · obtain ⟨l, hl, _⟩ := h
      exact Option.noConfusion hl
  | some l =>
    by_cases hcond : l.length < MIN_STRING_SIZE ∨ l.length > MAX_STRING_SIZE
    · have hic : l.length < 1 ∨ l.length > 64 := hcond
      have hcs : checkString (some l) = -1 := by
        show (if l.length < MIN_STRING_SIZE ∨ l.length > MAX_STRING_SIZE then (-1 : Int) else 0)
          = -1
        rw [if_pos hcond]
      rw [hcs]
      refine ⟨⟨fun h => absurd h (by norm_num), fun h => ?_⟩, Or.inr rfl⟩
      obtain ⟨l', hl', h1, h2⟩ := h
      have hll : l' = l := (Option.some.inj hl').symm
      subst hll
      omega
    · have hic : ¬ (l.length < 1 ∨ l.length > 64) := hcond
      have hcs : checkString (some l) = 0 := by
        show (if l.length < MIN_STRING_SIZE ∨ l.length > MAX_STRING_SIZE then (-1 : Int) else 0)
          = 0
        rw [if_neg hcond]
      rw [hcs]
      refine ⟨⟨fun _ => ⟨l, rfl, ?_, ?_⟩, fun _ => rfl⟩, Or.inl rfl⟩
      · omega
      · omega

end UniqStr
